import Mathlib

/-!
Shallow embedding of the SMASH `Action` core (`src/action.cc`): the
interaction-candidate data model, branch accumulation, Monte-Carlo channel
selection, two-body kinematics sampling, staleness validation and the
conservation auditor.  Machine `float`/`double` arithmetic is embedded as
exact rational arithmetic; external collaborators (the random source, the
square-root routine, the resonance mass sampler, the isotropic direction
draw) are passed in as explicit parameters.
-/

namespace Smash

/-- Three-vector with rational components (embeds `ThreeVector`). -/
structure ThreeVector where
  x : ℚ
  y : ℚ
  z : ℚ
deriving DecidableEq

/-- Scalar multiplication `v * c` on three-vectors. -/
def ThreeVector.smul (c : ℚ) (v : ThreeVector) : ThreeVector :=
  ⟨c * v.x, c * v.y, c * v.z⟩

/-- Componentwise negation of a three-vector. -/
def ThreeVector.neg (v : ThreeVector) : ThreeVector :=
  ⟨-v.x, -v.y, -v.z⟩

/-- Four-vector with rational components (embeds `FourVector`):
`x0` is the energy component, `x1 x2 x3` the spatial components. -/
structure FourVector where
  x0 : ℚ
  x1 : ℚ
  x2 : ℚ
  x3 : ℚ
deriving DecidableEq

/-- The zero four-vector (default-constructed `FourVector`). -/
def FourVector.zero : FourVector := ⟨0, 0, 0, 0⟩

/-- Componentwise addition (embeds `FourVector::operator+=`). -/
def FourVector.add (u v : FourVector) : FourVector :=
  ⟨u.x0 + v.x0, u.x1 + v.x1, u.x2 + v.x2, u.x3 + v.x3⟩

/-- Componentwise subtraction (embeds `FourVector::operator-=`). -/
def FourVector.sub (u v : FourVector) : FourVector :=
  ⟨u.x0 - v.x0, u.x1 - v.x1, u.x2 - v.x2, u.x3 - v.x3⟩

/-- The spatial part of a four-vector (embeds `FourVector::threevec`). -/
def FourVector.threevec (u : FourVector) : ThreeVector :=
  ⟨u.x1, u.x2, u.x3⟩

/-- The `FourVector(energy, three-vector)` constructor overload. -/
def FourVector.ofE3 (e : ℚ) (v : ThreeVector) : FourVector :=
  ⟨e, v.x, v.y, v.z⟩

/-- Modelled from the spec: the invalid placeholder PDG code
(`PdgCode::invalid()`, whose definition is outside `src/`); the spec calls it
"the invalid placeholder" sentinel, distinguished only by inequality with
real codes, so any fixed integer serves. -/
def PdgCode.invalidCode : Int := 0

/-- Particle species data (interface model of `ParticleType`): the pieces
the `Action` code reads are the PDG code, the pole mass `mass()`, the
kinematic threshold `minimum_mass()` and the stability flag `is_stable()`. -/
structure ParticleType where
  pdgcode : Int
  mass : ℚ
  minimum_mass : ℚ
  is_stable : Bool
deriving DecidableEq

/-- Particle snapshot (interface model of `ParticleData`): unique id, the
id of the process that last altered it, the species, and the four-momentum. -/
structure ParticleData where
  id : Int
  id_process : Nat
  type : ParticleType
  momentum : FourVector
deriving DecidableEq

/-- Embeds `ParticleData::set_4momentum`. -/
def ParticleData.set_4momentum (p : ParticleData) (m : FourVector) : ParticleData :=
  { p with momentum := m }

/-- One weighted outcome branch (embeds `ProcessBranch`): an ordered list of
produced species and a statistical weight. -/
structure ProcessBranch where
  particle_types : List ParticleType
  weight : ℚ
deriving DecidableEq

/-- Modelled from the spec: `ProcessBranch::particle_list()` (defined outside
`src/`) materialises the branch's final state from its species list; at this
interface the final-state list is identified with the species list. -/
def ProcessBranch.particle_list (p : ProcessBranch) : List ParticleType :=
  p.particle_types

/-- The skip test of `Action::choose_channel` (lines 103–105): a branch is
skipped when its species list is empty or its first species carries the
invalid placeholder code.  The `||` short-circuit of the source makes the
`[0]` access safe; here the head is matched explicitly. -/
def ProcessBranch.is_skipped (p : ProcessBranch) : Bool :=
  decide (p.particle_types.length < 1) ||
    (match p.particle_types with
     | [] => true
     | t :: _ => decide (t.pdgcode = PdgCode.invalidCode))

/-- Sum of the weights of a list of branches. -/
def wsum (l : List ProcessBranch) : ℚ :=
  (l.map ProcessBranch.weight).sum

/-- The interaction candidate (embeds class `Action`). -/
structure Action where
  incoming_particles : List ParticleData
  outgoing_particles : List ParticleData
  subprocesses : List ProcessBranch
  time_of_execution : ℚ
  total_weight : ℚ
deriving DecidableEq

/-- The constructor `Action::Action(in_part, time_of_execution)`:
incoming snapshots copied in, total weight initialised to zero, branch and
outgoing lists empty. -/
def Action.init (in_part : List ParticleData) (time : ℚ) : Action :=
  ⟨in_part, [], [], time, 0⟩

/-- Embeds `Action::weight`: returns the cached total weight. -/
def Action.weight (a : Action) : ℚ :=
  a.total_weight

/-- Embeds `Action::add_process` (lines 41–44): adds the branch's weight to
the running total and appends the branch. -/
def Action.add_process (a : Action) (p : ProcessBranch) : Action :=
  { a with total_weight := a.total_weight + p.weight,
           subprocesses := a.subprocesses ++ [p] }

/-- Embeds `Action::add_processes` (lines 46–59): if no branches are stored
yet, adopt the incoming list and add each of its weights to the total;
otherwise append element-wise, adding each weight to the total. -/
def Action.add_processes (a : Action) (pv : List ProcessBranch) : Action :=
  if a.subprocesses.isEmpty then
    { a with subprocesses := pv,
             total_weight := a.total_weight + wsum pv }
  else
    { a with subprocesses := a.subprocesses ++ pv,
             total_weight := a.total_weight + wsum pv }

/-- One branch-accumulation call: either a single append
(`add_process`) or a bulk append (`add_processes`). -/
inductive AccOp where
  | single (p : ProcessBranch)
  | bulk (l : List ProcessBranch)
deriving DecidableEq

/-- Apply one accumulation call to an action. -/
def Action.applyOp (a : Action) : AccOp → Action
  | .single p => a.add_process p
  | .bulk l => a.add_processes l

/-- Apply a sequence of accumulation calls in order. -/
def Action.applyOps (a : Action) (ops : List AccOp) : Action :=
  ops.foldl Action.applyOp a

/-- Interface model of the external particle pool (`Particles`, declared
outside `src/`): an association list from particle id to that particle's
current `id_process`; `has_data` is membership, `data(id).id_process()` is
lookup of the first matching entry. -/
def Particles := List (Int × Nat)

/-- Embeds `Particles::has_data(id)`: the pool holds an entry for `i`. -/
def Particles.has_data (ps : Particles) (i : Int) : Bool :=
  (List.lookup i ps).isSome

/-- Embeds `Particles::data(id).id_process()`: the pool-side process tag of
particle `i` (`0` when absent; the source only calls it after `has_data`). -/
def Particles.data_id_process (ps : Particles) (i : Int) : Nat :=
  (List.lookup i ps).getD 0

/-- Embeds `Action::is_valid` (lines 61–75): every incoming snapshot must
still exist in the pool and its pool-side `id_process` must equal the
snapshot's recorded `id_process`.  The source's early `return false` on the
first failing particle is the `List.all` short-circuit. -/
def Action.is_valid (a : Action) (particles : Particles) : Bool :=
  a.incoming_particles.all fun part =>
    particles.has_data part.id &&
      decide (particles.data_id_process part.id = part.id_process)

/-- The payload of the fatal diagnostic in `Action::choose_channel`
(lines 113–116): branch count, accumulated interaction probability, total
weight, and the candidate itself (`*this`). -/
structure ChannelError where
  nBranches : Nat
  cumulative : ℚ
  totalWeight : ℚ
  candidate : Action
deriving DecidableEq

/-- The selection loop of `Action::choose_channel` (lines 102–111): walk the
branches in stored order; skip a branch failing the species test before its
weight is accumulated; otherwise accumulate `weight / total_weight` and
return the branch's final-state list as soon as the draw `r` is at most the
accumulated probability.  Returns the final accumulated probability together
with the selected list, if any. -/
def chooseLoop (tw r : ℚ) : List ProcessBranch → ℚ → ℚ × Option (List ParticleType)
  | [], acc => (acc, none)
  | p :: ps, acc =>
    if p.is_skipped then chooseLoop tw r ps acc
    else
      let acc' := acc + p.weight / tw
      if r ≤ acc' then (acc', some p.particle_list)
      else chooseLoop tw r ps acc'

/-- Embeds `Action::choose_channel` (lines 96–117) with the external uniform
draw `Random::canonical()` passed in as `r`.  When the loop selects no
branch, the fatal log-and-throw path is embedded as an error value carrying
the logged diagnostics. -/
def Action.choose_channel (a : Action) (r : ℚ) :
    Except ChannelError (List ParticleType) :=
  match chooseLoop a.total_weight r a.subprocesses 0 with
  | (_, some l) => .ok l
  | (acc, none) => .error ⟨a.subprocesses.length, acc, a.total_weight, a⟩

/-- The error raised by `Action::sample_cms_momenta`:
`InvalidResonanceFormation` carries the center-of-mass energy, the two
minimum masses and the two PDG codes printed into its message (lines
137–140); `assertFailed` stands for the `assert` on the outgoing size. -/
inductive SampleError where
  | notEnoughEnergy (cms min_a min_b : ℚ) (pdg_a pdg_b : Int)
  | assertFailed
deriving DecidableEq

/-- Whether a sampling error is the insufficient-energy condition. -/
def SampleError.isNotEnoughEnergy : SampleError → Bool
  | .notEnoughEnergy _ _ _ _ _ => true
  | .assertFailed => false

/-- The mass-selection step of `Action::sample_cms_momenta` (lines 131–149):
masses start at the pole masses; if species `a` is unstable its mass is
redrawn from the external resonance sampler, otherwise if species `b` is
unstable its mass is redrawn; `sampleMass t partner cms` stands for
`sample_resonance_mass(t, partner, cms_energy)`. -/
def sampled_masses (t_a t_b : ParticleType)
    (sampleMass : ParticleType → ParticleType → ℚ → ℚ) (cms : ℚ) : ℚ × ℚ :=
  if ¬ t_a.is_stable then (sampleMass t_a t_b cms, t_b.mass)
  else if ¬ t_b.is_stable then (t_a.mass, sampleMass t_b t_a cms)
  else (t_a.mass, t_b.mass)

/-- Embeds `Action::sample_cms_momenta` (lines 120–173).  External
collaborators are parameters: `sqrt_s` is the center-of-mass energy returned
by the (subclass-supplied) `sqrt_s()` method, `sampleMass` the resonance
mass sampler, `sqrtFn` the library square root, and `dir` the isotropically
drawn unit direction `phitheta.threevec()`.  On success the two outgoing
particles receive back-to-back four-momenta; on failure nothing is
assigned. -/
def Action.sample_cms_momenta (a : Action) (sqrt_s : ℚ)
    (sampleMass : ParticleType → ParticleType → ℚ → ℚ)
    (sqrtFn : ℚ → ℚ) (dir : ThreeVector) : Except SampleError Action :=
  match a.outgoing_particles with
  | [p_a, p_b] =>
    let t_a := p_a.type
    let t_b := p_b.type
    let cms_energy := sqrt_s
    if cms_energy < t_a.minimum_mass + t_b.minimum_mass then
      .error (.notEnoughEnergy cms_energy t_a.minimum_mass t_b.minimum_mass
        t_a.pdgcode t_b.pdgcode)
    else
      let masses := sampled_masses t_a t_b sampleMass cms_energy
      let mass_a := masses.1
      let mass_b := masses.2
      let energy_a := (cms_energy * cms_energy + mass_a * mass_a - mass_b * mass_b) /
        (2 * cms_energy)
      let momentum_radial := sqrtFn (energy_a * energy_a - mass_a * mass_a)
      .ok { a with outgoing_particles :=
        [p_a.set_4momentum
           (FourVector.ofE3 energy_a (ThreeVector.smul momentum_radial dir)),
         p_b.set_4momentum
           (FourVector.ofE3 (cms_energy - energy_a)
             (ThreeVector.smul momentum_radial dir.neg))] }
  | _ => .error .assertFailed

/-- Modelled from the spec: the numerical tolerance `really_small` lives in
`include/constants.h`, outside `src/`; the spec's worked example uses
`1e-6`. -/
def really_small : ℚ := 1 / 1000000

/-- Embeds the C library `fabs` as an executable definition. -/
def fabs (q : ℚ) : ℚ := if q < 0 then -q else q

/-- One diagnostic emitted by `Action::check_conservation`: the constructor
arguments mirror exactly what each `log.warn` call prints — the energy
diagnostic carries the process id (line 189), the three momentum-axis
diagnostics carry only the violating value (lines 193, 196, 199). -/
inductive ConsWarning where
  | energy (id_process : Nat) (v : ℚ)
  | px (v : ℚ)
  | py (v : ℚ)
  | pz (v : ℚ)
deriving DecidableEq

/-- Whether a conservation diagnostic names the process id. -/
def ConsWarning.namesProcessId : ConsWarning → Bool
  | .energy _ _ => true
  | _ => false

/-- The four-momentum difference computed by `Action::check_conservation`
(lines 179–185): sum of incoming momenta minus sum of outgoing momenta. -/
def Action.momentum_difference (a : Action) : FourVector :=
  a.outgoing_particles.foldl (fun acc p => acc.sub p.momentum)
    (a.incoming_particles.foldl (fun acc p => acc.add p.momentum) FourVector.zero)

/-- Embeds `Action::check_conservation` (lines 176–203): purely
observational — it returns the list of emitted diagnostics, one per
four-momentum component whose absolute difference exceeds `really_small`,
and never raises or mutates anything. -/
def Action.check_conservation (a : Action) (id_process : Nat) : List ConsWarning :=
  let d := a.momentum_difference
  (if really_small < fabs d.x0 then [ConsWarning.energy id_process d.x0] else []) ++
  (if really_small < fabs d.x1 then [ConsWarning.px d.x1] else []) ++
  (if really_small < fabs d.x2 then [ConsWarning.py d.x2] else []) ++
  (if really_small < fabs d.x3 then [ConsWarning.pz d.x3] else [])

/-! ## Helper lemmas -/

theorem wsum_nil : wsum [] = 0 := rfl

theorem fabs_eq_abs (q : ℚ) : fabs q = |q| := by
  rw [fabs]
  split_ifs with h
  · exact (abs_of_neg h).symm
  · exact (abs_of_nonneg (not_lt.mp h)).symm

theorem wsum_cons (p : ProcessBranch) (l : List ProcessBranch) :
    wsum (p :: l) = p.weight + wsum l := by
  simp [wsum]

theorem wsum_append (l₁ l₂ : List ProcessBranch) :
    wsum (l₁ ++ l₂) = wsum l₁ + wsum l₂ := by
  simp [wsum]

/-- One accumulation call preserves the total-weight invariant. -/
theorem applyOp_weight_invariant (a : Action) (op : AccOp)
    (h : a.total_weight = wsum a.subprocesses) :
    (a.applyOp op).total_weight = wsum (a.applyOp op).subprocesses := by
  cases op with
  | single p =>
    simp [Action.applyOp, Action.add_process, wsum_append, wsum_cons, wsum_nil, h]
  | bulk l =>
    simp only [Action.applyOp, Action.add_processes]
    by_cases he : a.subprocesses.isEmpty
    · have : a.subprocesses = [] := List.isEmpty_iff.mp he
      simp [he, h, this, wsum_nil]
    · simp [he, wsum_append, h]

/-- Any sequence of accumulation calls preserves the total-weight
invariant. -/
theorem applyOps_weight_invariant (ops : List AccOp) (a : Action)
    (h : a.total_weight = wsum a.subprocesses) :
    (a.applyOps ops).total_weight = wsum (a.applyOps ops).subprocesses := by
  induction ops generalizing a with
  | nil => exact h
  | cons op ops ih =>
    simpa [Action.applyOps, List.foldl_cons] using
      ih (a.applyOp op) (applyOp_weight_invariant a op h)

/-! ## C1 -/

/-- C1: for every action constructed from a particle list (total weight
initialised to zero) and every sequence of `add_process` / `add_processes`
calls applied in any order, the cached total returned by `weight()` equals
the arithmetic sum of the weights of all stored branches — on both the
adopt-the-list path and the element-wise append path. -/
theorem add_total_weight_eq_sum (in_part : List ParticleData) (time : ℚ)
    (ops : List AccOp) :
    ((Action.init in_part time).applyOps ops).weight =
      wsum ((Action.init in_part time).applyOps ops).subprocesses := by
  exact applyOps_weight_invariant ops (Action.init in_part time) rfl

/-! ## C7 -/

/-- C7: `is_valid` returns `true` exactly when every incoming snapshot is
still present in the pool with an unchanged `id_process`; equivalently it
returns `false` as soon as some incoming id is absent or its pool-side
`id_process` differs from the snapshot's.  `is_valid` is a pure function of
the action and the pool by construction. -/
theorem is_valid_iff_all_match (a : Action) (ps : Particles) :
    a.is_valid ps = true ↔
      ∀ part ∈ a.incoming_particles,
        ps.has_data part.id = true ∧
          ps.data_id_process part.id = part.id_process := by
  simp [Action.is_valid]

/-! ## C9 -/

/-- Concrete action for the conservation audit: one incoming particle and
one outgoing particle whose momenta agree except for a `1/100` excess in the
incoming `x`-momentum component. -/
def actionPxOff : Action :=
  { incoming_particles :=
      [⟨1, 0, ⟨211, 1, 1, true⟩, ⟨1, 1/100, 0, 0⟩⟩],
    outgoing_particles :=
      [⟨2, 0, ⟨211, 1, 1, true⟩, ⟨1, 0, 0, 0⟩⟩],
    subprocesses := [],
    time_of_execution := 0,
    total_weight := 0 }

/-- C9 counterexample: on `actionPxOff` the `px` component is off by
`1/100 > really_small`, so `check_conservation` emits exactly one
diagnostic, and that diagnostic — mirroring the `log.warn` call on line 193
of the source — names the component and the value but not the process id,
contradicting the claim that every component's diagnostic names the process
id. -/
theorem check_conservation_px_lacks_process_id :
    actionPxOff.check_conservation 7 = [ConsWarning.px (1/100)] ∧
      ConsWarning.namesProcessId (ConsWarning.px (1/100)) = false := by
  constructor
  · norm_num [Action.check_conservation, Action.momentum_difference,
      actionPxOff, FourVector.zero, FourVector.add, FourVector.sub, fabs,
      really_small]
  · rfl

/-- C9 (amended): `check_conservation` computes the incoming-minus-outgoing
four-momentum difference and, for each of the four components
independently, emits a diagnostic naming that component (and, for the
energy component only, also the process id) exactly when the component's
absolute difference exceeds the tolerance; it emits nothing when all four
components are within tolerance.  It never raises and, being a pure
function returning only the diagnostic list, leaves the action and its
outgoing list unchanged. -/
theorem check_conservation_warns_iff (a : Action) (idp : Nat) :
    (ConsWarning.energy idp a.momentum_difference.x0 ∈ a.check_conservation idp ↔
      really_small < |a.momentum_difference.x0|) ∧
    (ConsWarning.px a.momentum_difference.x1 ∈ a.check_conservation idp ↔
      really_small < |a.momentum_difference.x1|) ∧
    (ConsWarning.py a.momentum_difference.x2 ∈ a.check_conservation idp ↔
      really_small < |a.momentum_difference.x2|) ∧
    (ConsWarning.pz a.momentum_difference.x3 ∈ a.check_conservation idp ↔
      really_small < |a.momentum_difference.x3|) ∧
    (a.check_conservation idp = [] ↔
      |a.momentum_difference.x0| ≤ really_small ∧
      |a.momentum_difference.x1| ≤ really_small ∧
      |a.momentum_difference.x2| ≤ really_small ∧
      |a.momentum_difference.x3| ≤ really_small) := by
  simp only [Action.check_conservation, fabs_eq_abs]
  split_ifs <;> simp_all [not_lt, le_of_lt]

/-! ## Channel-selection helper lemmas -/

theorem wsum_nonneg (l : List ProcessBranch) (h : ∀ p ∈ l, 0 ≤ p.weight) :
    0 ≤ wsum l := by
  refine List.sum_nonneg ?_
  intro x hx
  obtain ⟨p, hp, rfl⟩ := List.mem_map.mp hx
  exact h p hp

theorem wsum_filter_add (q : ProcessBranch → Bool) (l : List ProcessBranch) :
    wsum (l.filter q) + wsum (l.filter fun p => !(q p)) = wsum l := by
  induction l with
  | nil => simp [wsum_nil]
  | cons p ps ih =>
    by_cases hq : q p <;>
      simp [List.filter_cons, hq, wsum_cons, ← ih] <;> ring

theorem acc_add_div (acc w s tw : ℚ) :
    acc + (w + s) / tw = (acc + w / tw) + s / tw := by
  rw [add_div]; ring

/-- If the selected-branch test fails at every non-skipped branch, the
selection loop walks the whole list, accumulates exactly the non-skipped
weights on top of `acc`, and selects nothing. -/
theorem chooseLoop_none_eq (tw r : ℚ) (l : List ProcessBranch) (acc : ℚ)
    (h : ∀ i (hi : i < l.length), (l.get ⟨i, hi⟩).is_skipped = false →
      ¬ r ≤ acc + wsum ((l.take (i + 1)).filter fun p => !p.is_skipped) / tw) :
    chooseLoop tw r l acc =
      (acc + wsum (l.filter fun p => !p.is_skipped) / tw, none) := by
  induction l generalizing acc with
  | nil => simp [chooseLoop, wsum_nil]
  | cons p ps ih =>
    by_cases hp : p.is_skipped
    · have hfilter : (p :: ps).filter (fun p => !p.is_skipped) =
          ps.filter fun p => !p.is_skipped := by
        simp [List.filter_cons, hp]
      rw [chooseLoop, if_pos hp, hfilter]
      refine ih acc ?_
      intro i hi hsk
      have := h (i + 1) (by simpa using Nat.succ_lt_succ hi) (by simpa using hsk)
      simpa [List.take_succ_cons, List.filter_cons, hp] using this
    · have hcond : ¬ r ≤ acc + p.weight / tw := by
        have := h 0 (by simp) (by simpa using hp)
        simpa [List.take_succ_cons, List.filter_cons, hp, wsum_cons, wsum_nil] using this
      rw [chooseLoop, if_neg hp]
      simp only [if_neg hcond]
      have hrec := ih (acc + p.weight / tw) ?_
      · rw [hrec]
        have hfilter : (p :: ps).filter (fun p => !p.is_skipped) =
            p :: ps.filter fun p => !p.is_skipped := by
          simp [List.filter_cons, hp]
        rw [hfilter, wsum_cons, acc_add_div]
      · intro i hi hsk
        have := h (i + 1) (by simpa using Nat.succ_lt_succ hi) (by simpa using hsk)
        rw [List.take_succ_cons, List.filter_cons] at this
        simp only [hp, Bool.not_false, if_pos] at this
        simpa [wsum_cons, acc_add_div] using this

/-- Whatever the selection loop returns came from a branch of the list that
passed the skip test. -/
theorem chooseLoop_ok_mem (tw r : ℚ) (l : List ProcessBranch) (acc c : ℚ)
    (out : List ParticleType) (h : chooseLoop tw r l acc = (c, some out)) :
    ∃ p, p ∈ l ∧ p.is_skipped = false ∧ out = p.particle_list := by
  induction l generalizing acc with
  | nil => simp [chooseLoop] at h
  | cons p ps ih =>
    rw [chooseLoop] at h
    by_cases hp : p.is_skipped
    · rw [if_pos hp] at h
      obtain ⟨q, hq, hs, ho⟩ := ih acc h
      exact ⟨q, List.mem_cons_of_mem _ hq, hs, ho⟩
    · rw [if_neg hp] at h
      simp only at h
      by_cases hr : r ≤ acc + p.weight / tw
      · rw [if_pos hr] at h
        simp only [Prod.mk.injEq, Option.some.injEq] at h
        exact ⟨p, List.mem_cons_self _ _, by simpa using hp, h.2.symm⟩
      · rw [if_neg hr] at h
        obtain ⟨q, hq, hs, ho⟩ := ih _ h
        exact ⟨q, List.mem_cons_of_mem _ hq, hs, ho⟩

/-- A branch passing the skip test never shares its final-state list with a
branch failing it: the former has a first species with a non-placeholder
code, the latter is empty or starts with the placeholder. -/
theorem particle_list_ne_of_skipped (p q : ProcessBranch)
    (hp : p.is_skipped = false) (hq : q.is_skipped = true) :
    p.particle_list ≠ q.particle_list := by
  unfold ProcessBranch.particle_list
  cases hpl : p.particle_types with
  | nil => simp [ProcessBranch.is_skipped, hpl] at hp
  | cons t ts =>
    cases hql : q.particle_types with
    | nil => simp
    | cons s ss =>
      rw [ProcessBranch.is_skipped, hpl] at hp
      rw [ProcessBranch.is_skipped, hql] at hq
      simp only [List.length_cons, Bool.or_eq_false_iff, Bool.or_eq_true] at hp hq
      intro he
      injection he with h1 h2
      rcases hq with hq | hq
      · simp at hq
      · have : t.pdgcode = PdgCode.invalidCode := h1 ▸ by simpa using hq
        exact absurd this (by simpa using hp.2)

/-- Shared helper: when the selected-branch test fails at every non-skipped
branch, `choose_channel` returns the fatal diagnostic carrying the branch
count, the accumulated probability over the non-skipped branches, the total
weight and the candidate itself. -/
theorem choose_channel_error_of_no_hit (a : Action) (r : ℚ)
    (h : ∀ i (hi : i < a.subprocesses.length),
      (a.subprocesses.get ⟨i, hi⟩).is_skipped = false →
      ¬ r ≤ wsum ((a.subprocesses.take (i + 1)).filter fun p => !p.is_skipped) /
        a.total_weight) :
    a.choose_channel r = .error
      ⟨a.subprocesses.length,
       wsum (a.subprocesses.filter fun p => !p.is_skipped) / a.total_weight,
       a.total_weight, a⟩ := by
  unfold Action.choose_channel
  rw [chooseLoop_none_eq a.total_weight r a.subprocesses 0 (by
    intro i hi hsk
    simpa using h i hi hsk)]
  simp

/-! ## C3 -/

/-- C3: for every action and draw, whenever `choose_channel` returns a
final-state list, that list belongs to a branch passing the skip test; in
particular it is never the final-state list of a branch whose species list
is empty or whose first species is the invalid placeholder, even when such
a branch has nonzero weight. -/
theorem choose_channel_never_selects_invalid (a : Action) (r : ℚ)
    (out : List ParticleType) (h : a.choose_channel r = .ok out) :
    (∃ p, p ∈ a.subprocesses ∧ p.is_skipped = false ∧ out = p.particle_list) ∧
      ∀ q ∈ a.subprocesses, q.is_skipped = true → out ≠ q.particle_list := by
  unfold Action.choose_channel at h
  rcases hc : chooseLoop a.total_weight r a.subprocesses 0 with ⟨c, o⟩
  rw [hc] at h
  cases o with
  | none => simp at h
  | some l =>
    simp only [Except.ok.injEq] at h
    subst h
    obtain ⟨p, hp, hs, ho⟩ := chooseLoop_ok_mem _ _ _ _ _ _ hc
    refine ⟨⟨p, hp, hs, ho⟩, ?_⟩
    intro q _ hq
    rw [ho]
    exact particle_list_ne_of_skipped p q hs hq

/-! ## C4 -/

/-- C4: whenever the selection loop finds no selectable branch whose
accumulated probability reaches the drawn value `r`, `choose_channel`
produces the fatal diagnostic — carrying the branch count, the accumulated
probability, the total weight and the candidate contents — and raises an
error instead of defaulting to any branch; no final-state list is
returned. -/
theorem choose_channel_fatal_on_no_hit (a : Action) (r : ℚ)
    (h : ∀ i (hi : i < a.subprocesses.length),
      (a.subprocesses.get ⟨i, hi⟩).is_skipped = false →
      ¬ r ≤ wsum ((a.subprocesses.take (i + 1)).filter fun p => !p.is_skipped) /
        a.total_weight) :
    a.choose_channel r = .error
      ⟨a.subprocesses.length,
       wsum (a.subprocesses.filter fun p => !p.is_skipped) / a.total_weight,
       a.total_weight, a⟩ :=
  choose_channel_error_of_no_hit a r h

/-- When no branch is skipped, the loop, entered with accumulator `acc`,
selects exactly the branch at the least index whose accumulated probability
reaches `r`, i.e. the index `i` with
`acc + sum(w1..wi)/tw < r ≤ acc + sum(w1..w(i+1))/tw`. -/
theorem chooseLoop_select (tw r : ℚ) (l : List ProcessBranch) (acc : ℚ)
    (i : Nat) (hi : i < l.length)
    (hall : ∀ p ∈ l, p.is_skipped = false)
    (hnn : ∀ p ∈ l, 0 ≤ p.weight)
    (htw : 0 < tw)
    (hlo : acc + wsum (l.take i) / tw < r)
    (hhi : r ≤ acc + wsum (l.take (i + 1)) / tw) :
    chooseLoop tw r l acc =
      (acc + wsum (l.take (i + 1)) / tw,
       some ((l.get ⟨i, hi⟩).particle_list)) := by
  induction l generalizing acc i with
  | nil => exact absurd hi (by simp)
  | cons p ps ih =>
    have hp : p.is_skipped = false := hall p (List.mem_cons_self _ _)
    rw [chooseLoop, if_neg (by simp [hp])]
    simp only
    cases i with
    | zero =>
      have hc : r ≤ acc + p.weight / tw := by
        simpa [List.take_succ_cons, wsum_cons, wsum_nil] using hhi
      rw [if_pos hc]
      simp [List.take_succ_cons, wsum_cons, wsum_nil]
    | succ j =>
      have hj : j < ps.length := by simpa using Nat.lt_of_succ_lt_succ hi
      have htake : 0 ≤ wsum (ps.take j) := by
        refine wsum_nonneg _ ?_
        intro q hq
        exact hnn q (List.mem_cons_of_mem _ (List.mem_of_mem_take hq))
      have hlo' : (acc + p.weight / tw) + wsum (ps.take j) / tw < r := by
        rw [← acc_add_div, ← wsum_cons, ← List.take_succ_cons]
        exact hlo
      have hnr : ¬ r ≤ acc + p.weight / tw := by
        have hdiv : 0 ≤ wsum (ps.take j) / tw := div_nonneg htake (le_of_lt htw)
        intro hcon
        exact absurd hlo' (by linarith)
      rw [if_neg hnr]
      have hhi' : r ≤ (acc + p.weight / tw) + wsum (ps.take (j + 1)) / tw := by
        rw [← acc_add_div, ← wsum_cons, ← List.take_succ_cons]
        exact hhi
      have := ih (acc + p.weight / tw) j hj
        (fun q hq => hall q (List.mem_cons_of_mem _ hq))
        (fun q hq => hnn q (List.mem_cons_of_mem _ hq))
        hlo' hhi'
      rw [this, List.take_succ_cons, wsum_cons, acc_add_div]
      rfl

/-! ## C2 -/

/-- C2: for an action whose branches all pass the skip test (non-empty
species list, valid leading species), with nonnegative weights and positive
total weight, `choose_channel` on draw `r` returns the particle list of the
branch at the smallest index `i` such that `r ≤ (w1 + ... + w(i+1)) / W`,
i.e. the index whose half-open probability interval
`(sum(w1..wi)/W, sum(w1..w(i+1))/W]` contains `r`. -/
theorem choose_channel_selects_least_index (a : Action) (r : ℚ) (i : Nat)
    (hi : i < a.subprocesses.length)
    (hall : ∀ p ∈ a.subprocesses, p.is_skipped = false)
    (hnn : ∀ p ∈ a.subprocesses, 0 ≤ p.weight)
    (hpos : 0 < a.total_weight)
    (hlo : wsum (a.subprocesses.take i) / a.total_weight < r)
    (hhi : r ≤ wsum (a.subprocesses.take (i + 1)) / a.total_weight) :
    a.choose_channel r = .ok ((a.subprocesses.get ⟨i, hi⟩).particle_list) := by
  unfold Action.choose_channel
  rw [chooseLoop_select a.total_weight r a.subprocesses 0 i hi hall hnn hpos
    (by simpa using hlo) (by simpa using hhi)]

/-! ## C10 -/

/-- The accumulated weight of the branches kept by a filter over a list
prefix never exceeds its value over the whole list, when weights are
nonnegative. -/
theorem wsum_filter_take_le (q : ProcessBranch → Bool) (l : List ProcessBranch)
    (k : Nat) (hnn : ∀ p ∈ l, 0 ≤ p.weight) :
    wsum ((l.take k).filter q) ≤ wsum (l.filter q) := by
  conv_rhs => rw [← List.take_append_drop k l]
  rw [List.filter_append, wsum_append]
  have h0 : 0 ≤ wsum ((l.drop k).filter q) := by
    refine wsum_nonneg _ ?_
    intro p hp
    exact hnn p (List.mem_of_mem_drop (List.mem_filter.mp hp).1)
  linarith

/-- C10: because `choose_channel` skips empty/invalid-placeholder branches
while their weights still contribute to the cached total weight (the
denominator), whenever the skipped branches carry positive total weight
`w_inv` and the cached total equals the sum of all branch weights (the C1
invariant holding exactly), every draw `r` with `(W - w_inv)/W < r < 1`
reaches the fatal error path — the abort is reachable without any
floating-point rounding. -/
theorem choose_channel_abort_reachable (a : Action) (r : ℚ)
    (htw : a.total_weight = wsum a.subprocesses)
    (hnn : ∀ p ∈ a.subprocesses, 0 ≤ p.weight)
    (hinv : 0 < wsum (a.subprocesses.filter fun p => p.is_skipped))
    (hr : (a.total_weight - wsum (a.subprocesses.filter fun p => p.is_skipped)) /
        a.total_weight < r)
    (hr1 : r < 1) :
    a.choose_channel r = .error
      ⟨a.subprocesses.length,
       wsum (a.subprocesses.filter fun p => !p.is_skipped) / a.total_weight,
       a.total_weight, a⟩ := by
  have hsplit := wsum_filter_add (fun p => p.is_skipped) a.subprocesses
  have hselnn : 0 ≤ wsum (a.subprocesses.filter fun p => !p.is_skipped) := by
    refine wsum_nonneg _ ?_
    intro p hp
    exact hnn p (List.mem_filter.mp hp).1
  have hW : 0 < a.total_weight := by rw [htw, ← hsplit]; linarith
  have hsel : a.total_weight - wsum (a.subprocesses.filter fun p => p.is_skipped) =
      wsum (a.subprocesses.filter fun p => !p.is_skipped) := by
    rw [htw, ← hsplit]; ring
  rw [hsel] at hr
  refine choose_channel_error_of_no_hit a r ?_
  intro i hi _
  have hle : wsum ((a.subprocesses.take (i + 1)).filter fun p => !p.is_skipped) ≤
      wsum (a.subprocesses.filter fun p => !p.is_skipped) :=
    wsum_filter_take_le _ _ _ hnn
  have hdiv : wsum ((a.subprocesses.take (i + 1)).filter fun p => !p.is_skipped) /
      a.total_weight ≤
      wsum (a.subprocesses.filter fun p => !p.is_skipped) / a.total_weight :=
    (div_le_div_iff_of_pos_right hW).mpr hle
  intro hcon
  linarith

/-! ## C5 -/

/-- C5: for a two-particle final state, `sample_cms_momenta` raises the
insufficient-energy error exactly when the center-of-mass energy is
strictly below the sum of the two species' minimum masses; when the energy
suffices it succeeds, and on failure it returns only the error — no
four-momenta are assigned (no silent clamping). -/
theorem sample_cms_momenta_energy_check (a : Action) (sqrt_s : ℚ)
    (sampleMass : ParticleType → ParticleType → ℚ → ℚ)
    (sqrtFn : ℚ → ℚ) (dir : ThreeVector) (p_a p_b : ParticleData)
    (hout : a.outgoing_particles = [p_a, p_b]) :
    (sqrt_s < p_a.type.minimum_mass + p_b.type.minimum_mass →
      a.sample_cms_momenta sqrt_s sampleMass sqrtFn dir =
        .error (.notEnoughEnergy sqrt_s p_a.type.minimum_mass
          p_b.type.minimum_mass p_a.type.pdgcode p_b.type.pdgcode)) ∧
    (¬ sqrt_s < p_a.type.minimum_mass + p_b.type.minimum_mass →
      ∃ a', a.sample_cms_momenta sqrt_s sampleMass sqrtFn dir = .ok a') := by
  unfold Action.sample_cms_momenta
  rw [hout]
  constructor
  · intro hlt
    simp only [if_pos hlt]
  · intro hge
    simp only [if_neg hge]
    exact ⟨_, rfl⟩

/-! ## C6 -/

/-- C6: for a two-particle final state of stable species with sufficient
energy, `sample_cms_momenta` assigns `E_a = (s + m_a² - m_b²)/(2·sqrt_s)`,
`E_b = sqrt_s - E_a` (so the two energies sum to `sqrt_s`), and the two
three-momenta are exact negatives of each other, both the shared radial
magnitude `p = sqrt(E_a² - m_a²)` times the drawn unit direction. -/
theorem sample_cms_momenta_two_body (a : Action) (sqrt_s : ℚ)
    (sampleMass : ParticleType → ParticleType → ℚ → ℚ)
    (sqrtFn : ℚ → ℚ) (dir : ThreeVector) (p_a p_b : ParticleData)
    (hout : a.outgoing_particles = [p_a, p_b])
    (hsa : p_a.type.is_stable = true) (hsb : p_b.type.is_stable = true)
    (hE : ¬ sqrt_s < p_a.type.minimum_mass + p_b.type.minimum_mass) :
    ∃ a' q_a q_b,
      a.sample_cms_momenta sqrt_s sampleMass sqrtFn dir = .ok a' ∧
      a'.outgoing_particles = [q_a, q_b] ∧
      q_a.momentum.x0 =
        (sqrt_s * sqrt_s + p_a.type.mass * p_a.type.mass -
          p_b.type.mass * p_b.type.mass) / (2 * sqrt_s) ∧
      q_b.momentum.x0 = sqrt_s - q_a.momentum.x0 ∧
      q_a.momentum.x0 + q_b.momentum.x0 = sqrt_s ∧
      q_a.momentum.threevec =
        ThreeVector.smul
          (sqrtFn (q_a.momentum.x0 * q_a.momentum.x0 -
            p_a.type.mass * p_a.type.mass)) dir ∧
      q_b.momentum.threevec = ThreeVector.neg q_a.momentum.threevec := by
  unfold Action.sample_cms_momenta
  rw [hout]
  have hm : sampled_masses p_a.type p_b.type sampleMass sqrt_s =
      (p_a.type.mass, p_b.type.mass) := by
    simp [sampled_masses, hsa, hsb]
  simp only [if_neg hE, hm]
  refine ⟨_, _, _, rfl, rfl, rfl, rfl, ?_, rfl, ?_⟩
  · simp only [ParticleData.set_4momentum, FourVector.ofE3]
    ring
  · simp only [ParticleData.set_4momentum, FourVector.ofE3,
      FourVector.threevec, ThreeVector.smul, ThreeVector.neg,
      ThreeVector.mk.injEq]
    refine ⟨by ring, by ring, by ring⟩

/-! ## C8 -/

/-- C8: in the mass-selection step of `sample_cms_momenta`, at most one of
the two outgoing species ever has its mass drawn from the resonance
sampler: when species `a` is unstable its mass is sampled and species `b`
keeps its fixed pole mass — even when `b` is also unstable; `b`'s mass is
sampled only when `a` is stable and `b` is unstable; when both are stable
neither mass is sampled and both keep their pole masses.  Each equality
holds for every sampler `sampleMass`, so the unsampled slots cannot depend
on the sampler. -/
theorem sampled_masses_at_most_one (t_a t_b : ParticleType)
    (sampleMass : ParticleType → ParticleType → ℚ → ℚ) (cms : ℚ) :
    (t_a.is_stable = false →
      sampled_masses t_a t_b sampleMass cms = (sampleMass t_a t_b cms, t_b.mass)) ∧
    (t_a.is_stable = true → t_b.is_stable = false →
      sampled_masses t_a t_b sampleMass cms = (t_a.mass, sampleMass t_b t_a cms)) ∧
    (t_a.is_stable = true → t_b.is_stable = true →
      sampled_masses t_a t_b sampleMass cms = (t_a.mass, t_b.mass)) := by
  refine ⟨fun ha => ?_, fun ha hb => ?_, fun ha hb => ?_⟩ <;>
    simp [sampled_masses, ha]
  · simp [hb]
  · simp [hb]

/-! ## Concrete data for the witnesses -/

/-- A stable species: mass and minimum mass `1/2`, a valid PDG code. -/
def tPi : ParticleType := ⟨211, 1/2, 1/2, true⟩

/-- An unstable (resonance) species with a valid PDG code. -/
def tRho : ParticleType := ⟨113, 3/4, 1/4, false⟩

/-- A branch with final state `[tPi]` and weight `1`. -/
def bOne : ProcessBranch := ⟨[tPi], 1⟩

/-- A branch with final state `[tRho]` and weight `1`. -/
def bTwo : ProcessBranch := ⟨[tRho], 1⟩

/-- A branch with an empty species list and weight `1`: stored but excluded
from selection. -/
def bEmpty : ProcessBranch := ⟨[], 1⟩

/-- Action with two selectable branches of weight `1` each, total `2`. -/
def actTwoBranch : Action := ⟨[], [], [bOne, bTwo], 0, 2⟩

/-- Action with a single selectable branch of weight `1`, total `1`. -/
def actOneBranch : Action := ⟨[], [], [bOne], 0, 1⟩

/-- Action whose cached total `2` exceeds the stored branch weight `1`,
standing for the bookkeeping drift the fatal path guards against. -/
def actDrift : Action := ⟨[], [], [bOne], 0, 2⟩

/-- Action holding one selectable and one empty-final-state branch; the
cached total `2` equals the sum of both weights. -/
def actWithInvalid : Action := ⟨[], [], [bOne, bEmpty], 0, 2⟩

/-- Outgoing snapshot slots for the kinematics sampler. -/
def pOutA : ParticleData := ⟨1, 0, tPi, FourVector.zero⟩

/-- Second outgoing snapshot slot for the kinematics sampler. -/
def pOutB : ParticleData := ⟨2, 0, tPi, FourVector.zero⟩

/-- Action with two outgoing stable particles awaiting momenta. -/
def actTwoOut : Action := ⟨[], [pOutA, pOutB], [], 0, 0⟩

/-- A trivial stand-in for the external resonance mass sampler. -/
def sm0 : ParticleType → ParticleType → ℚ → ℚ := fun _ _ _ => 0

/-- A trivial stand-in for the external square-root routine. -/
def sq0 : ℚ → ℚ := fun q => q

/-- A concrete unit emission direction along the `z` axis. -/
def dirZ : ThreeVector := ⟨0, 0, 1⟩

/-! ## Witnesses -/

/-- C2 witness: on the two-branch action with weights `[1, 1]` and total
`2`, the draw `r = 3/4` lies in `(1/2, 1]`, and `choose_channel` returns
the second branch's final state `[tRho]`. -/
theorem choose_channel_selects_least_index_witness :
    1 < actTwoBranch.subprocesses.length ∧
    (∀ p ∈ actTwoBranch.subprocesses, p.is_skipped = false) ∧
    (∀ p ∈ actTwoBranch.subprocesses, 0 ≤ p.weight) ∧
    0 < actTwoBranch.total_weight ∧
    wsum (actTwoBranch.subprocesses.take 1) / actTwoBranch.total_weight <
      3 / 4 ∧
    (3 / 4 : ℚ) ≤
      wsum (actTwoBranch.subprocesses.take 2) / actTwoBranch.total_weight ∧
    actTwoBranch.choose_channel (3 / 4) = .ok [tRho] := by
  have hlen : 1 < actTwoBranch.subprocesses.length := by
    norm_num [actTwoBranch]
  have hall : ∀ p ∈ actTwoBranch.subprocesses, p.is_skipped = false := by
    intro p hp
    simp only [actTwoBranch, List.mem_cons, List.not_mem_nil, or_false] at hp
    rcases hp with rfl | rfl <;> rfl
  have hnn : ∀ p ∈ actTwoBranch.subprocesses, 0 ≤ p.weight := by
    intro p hp
    simp only [actTwoBranch, List.mem_cons, List.not_mem_nil, or_false] at hp
    rcases hp with rfl | rfl <;> norm_num [bOne, bTwo]
  have hpos : 0 < actTwoBranch.total_weight := by norm_num [actTwoBranch]
  have hlo : wsum (actTwoBranch.subprocesses.take 1) / actTwoBranch.total_weight <
      3 / 4 := by
    norm_num [actTwoBranch, wsum, bOne]
  have hhi : (3 / 4 : ℚ) ≤
      wsum (actTwoBranch.subprocesses.take 2) / actTwoBranch.total_weight := by
    norm_num [actTwoBranch, wsum, bOne, bTwo]
  have hc := choose_channel_selects_least_index actTwoBranch (3 / 4) 1 hlen
    hall hnn hpos hlo hhi
  exact ⟨hlen, hall, hnn, hpos, hlo, hhi, hc⟩

/-- C3 witness: on the single-valid-branch action, the draw `1/2` selects
`[tPi]`, which indeed belongs to a non-skipped stored branch and differs
from every skipped branch's final state. -/
theorem choose_channel_never_selects_invalid_witness :
    actOneBranch.choose_channel (1 / 2) = .ok [tPi] ∧
    ((∃ p, p ∈ actOneBranch.subprocesses ∧ p.is_skipped = false ∧
        [tPi] = p.particle_list) ∧
      ∀ q ∈ actOneBranch.subprocesses, q.is_skipped = true →
        [tPi] ≠ q.particle_list) := by
  have h : actOneBranch.choose_channel (1 / 2) = .ok [tPi] := by
    norm_num [Action.choose_channel, chooseLoop, actOneBranch, bOne,
      ProcessBranch.is_skipped, ProcessBranch.particle_list, tPi,
      PdgCode.invalidCode]
  exact ⟨h, choose_channel_never_selects_invalid actOneBranch (1 / 2) [tPi] h⟩

/-- C4 witness: on the drifted action (stored weight `1`, cached total
`2`), the draw `3/4` exceeds the final accumulated probability `1/2`, so
`choose_channel` returns the fatal diagnostic instead of any branch. -/
theorem choose_channel_fatal_on_no_hit_witness :
    (∀ i (hi : i < actDrift.subprocesses.length),
      (actDrift.subprocesses.get ⟨i, hi⟩).is_skipped = false →
      ¬ (3 / 4 : ℚ) ≤
        wsum ((actDrift.subprocesses.take (i + 1)).filter fun p => !p.is_skipped) /
          actDrift.total_weight) ∧
    actDrift.choose_channel (3 / 4) = .error
      ⟨actDrift.subprocesses.length,
       wsum (actDrift.subprocesses.filter fun p => !p.is_skipped) /
         actDrift.total_weight,
       actDrift.total_weight, actDrift⟩ := by
  have h : ∀ i (hi : i < actDrift.subprocesses.length),
      (actDrift.subprocesses.get ⟨i, hi⟩).is_skipped = false →
      ¬ (3 / 4 : ℚ) ≤
        wsum ((actDrift.subprocesses.take (i + 1)).filter fun p => !p.is_skipped) /
          actDrift.total_weight := by
    intro i hi _
    have hi0 : i = 0 := by
      have : actDrift.subprocesses.length = 1 := rfl
      omega
    subst hi0
    norm_num [actDrift, wsum, bOne, ProcessBranch.is_skipped, tPi,
      PdgCode.invalidCode]
  exact ⟨h, choose_channel_fatal_on_no_hit actDrift (3 / 4) h⟩

/-- C5 witness: the spec's own example — `sqrt_s = 9/10` against two
minimum masses of `1/2` — makes `sample_cms_momenta` fail with the
insufficient-energy error. -/
theorem sample_cms_momenta_energy_check_witness :
    actTwoOut.outgoing_particles = [pOutA, pOutB] ∧
    (9 / 10 : ℚ) < pOutA.type.minimum_mass + pOutB.type.minimum_mass ∧
    actTwoOut.sample_cms_momenta (9 / 10) sm0 sq0 dirZ =
      .error (.notEnoughEnergy (9 / 10) pOutA.type.minimum_mass
        pOutB.type.minimum_mass pOutA.type.pdgcode pOutB.type.pdgcode) := by
  have hout : actTwoOut.outgoing_particles = [pOutA, pOutB] := rfl
  have hlt : (9 / 10 : ℚ) < pOutA.type.minimum_mass + pOutB.type.minimum_mass := by
    norm_num [pOutA, pOutB, tPi]
  exact ⟨hout, hlt,
    (sample_cms_momenta_energy_check actTwoOut (9 / 10) sm0 sq0 dirZ
      pOutA pOutB hout).1 hlt⟩

/-- C6 witness: the spec's end-to-end example — `sqrt_s = 2` with two
stable masses of `1/2` — yields back-to-back momenta with
`E_a = E_b = 1`. -/
theorem sample_cms_momenta_two_body_witness :
    actTwoOut.outgoing_particles = [pOutA, pOutB] ∧
    pOutA.type.is_stable = true ∧ pOutB.type.is_stable = true ∧
    ¬ (2 : ℚ) < pOutA.type.minimum_mass + pOutB.type.minimum_mass ∧
    (∃ a' q_a q_b,
      actTwoOut.sample_cms_momenta 2 sm0 sq0 dirZ = .ok a' ∧
      a'.outgoing_particles = [q_a, q_b] ∧
      q_a.momentum.x0 =
        ((2 : ℚ) * 2 + pOutA.type.mass * pOutA.type.mass -
          pOutB.type.mass * pOutB.type.mass) / (2 * 2) ∧
      q_b.momentum.x0 = 2 - q_a.momentum.x0 ∧
      q_a.momentum.x0 + q_b.momentum.x0 = 2 ∧
      q_a.momentum.threevec =
        ThreeVector.smul
          (sq0 (q_a.momentum.x0 * q_a.momentum.x0 -
            pOutA.type.mass * pOutA.type.mass)) dirZ ∧
      q_b.momentum.threevec = ThreeVector.neg q_a.momentum.threevec) := by
  have hout : actTwoOut.outgoing_particles = [pOutA, pOutB] := rfl
  have hE : ¬ (2 : ℚ) < pOutA.type.minimum_mass + pOutB.type.minimum_mass := by
    norm_num [pOutA, pOutB, tPi]
  exact ⟨hout, rfl, rfl, hE,
    sample_cms_momenta_two_body actTwoOut 2 sm0 sq0 dirZ pOutA pOutB
      hout rfl rfl hE⟩

/-- C8 witness: with an unstable first species (and an unstable partner),
the sampled pair takes the sampler's value for the first mass while the
second keeps its pole mass. -/
theorem sampled_masses_at_most_one_witness :
    tRho.is_stable = false ∧
    sampled_masses tRho tRho sm0 2 = (sm0 tRho tRho 2, tRho.mass) :=
  ⟨rfl, (sampled_masses_at_most_one tRho tRho sm0 2).1 rfl⟩

/-- C10 witness: with one selectable branch of weight `1` and one stored
empty-final-state branch of weight `1` (total weight `2`, matching the sum
of all weights exactly), the draw `9/10 ∈ (1/2, 1)` reaches the fatal
error path. -/
theorem choose_channel_abort_reachable_witness :
    actWithInvalid.total_weight = wsum actWithInvalid.subprocesses ∧
    (∀ p ∈ actWithInvalid.subprocesses, 0 ≤ p.weight) ∧
    0 < wsum (actWithInvalid.subprocesses.filter fun p => p.is_skipped) ∧
    (actWithInvalid.total_weight -
        wsum (actWithInvalid.subprocesses.filter fun p => p.is_skipped)) /
      actWithInvalid.total_weight < 9 / 10 ∧
    (9 / 10 : ℚ) < 1 ∧
    actWithInvalid.choose_channel (9 / 10) = .error
      ⟨actWithInvalid.subprocesses.length,
       wsum (actWithInvalid.subprocesses.filter fun p => !p.is_skipped) /
         actWithInvalid.total_weight,
       actWithInvalid.total_weight, actWithInvalid⟩ := by
  have hskip : actWithInvalid.subprocesses.filter (fun p => p.is_skipped) =
      [bEmpty] := rfl
  have htw : actWithInvalid.total_weight = wsum actWithInvalid.subprocesses := by
    norm_num [actWithInvalid, wsum, bOne, bEmpty]
  have hnn : ∀ p ∈ actWithInvalid.subprocesses, 0 ≤ p.weight := by
    intro p hp
    simp only [actWithInvalid, List.mem_cons, List.not_mem_nil, or_false] at hp
    rcases hp with rfl | rfl <;> norm_num [bOne, bEmpty]
  have hinv : 0 < wsum (actWithInvalid.subprocesses.filter fun p => p.is_skipped) := by
    rw [hskip]
    norm_num [wsum, bEmpty]
  have hr : (actWithInvalid.total_weight -
      wsum (actWithInvalid.subprocesses.filter fun p => p.is_skipped)) /
      actWithInvalid.total_weight < 9 / 10 := by
    rw [hskip]
    norm_num [actWithInvalid, wsum, bEmpty]
  have hr1 : (9 / 10 : ℚ) < 1 := by norm_num
  exact ⟨htw, hnn, hinv, hr, hr1,
    choose_channel_abort_reachable actWithInvalid (9 / 10) htw hnn hinv hr hr1⟩

end Smash
